import Mathlib

/-!
Verification of the review cache-merge subsystem of the My_Business_Reviews
service (source: the Express server serving `/reviews` with file-backed
review caching).

Embedding conventions:
* A review record is a structure holding the fields the core logic reads:
  `reviewId` (the dedup key; the JS truthiness test `if (review.reviewId)`
  is modelled as `reviewId ≠ ""`), `createTime` modelled as the result of
  `new Date(createTime).getTime()` — `some t` for a parseable timestamp
  (milliseconds, an integer) and `none` for a missing/unparseable one
  (JS `NaN`) — `starRating`, and an opaque `comment` payload standing for
  all remaining upstream fields.
* The JS `Map` (string keys, insertion ordered, `set` overwrites in place)
  is modelled as an association list with `mapSet` mirroring `Map.set`.
* `Array.prototype.sort` with the comparator `(a, b) => dateB - dateA` is
  modelled as the engine actually executes it: ECMA-262 SortCompare
  coerces a `NaN` comparator result to `+0`, and V8's TimSort on arrays
  below 64 elements detects one initial run and binary-inserts the rest
  (`initialRun`, `binPos`, `binaryInsertAll`).  For parseable timestamps
  this is the mandated stable sort; with unparseable timestamps the
  comparator is inconsistent and the modelled order is the engine's.
* The lookup `starValues[review.starRating]` is a JS property read on an
  object literal: its five own properties yield numbers, but names of
  `Object.prototype` members resolve to truthy inherited values, which
  `|| 0` keeps and whose addition poisons the reduce into a non-numeric
  string (`StarLookup`, `JsAcc`); `averageRating` is then `NaN`
  (`JsNumber.nan`).
* The `/reviews` request handler is embedded as a pure function of its
  inputs: the configured environment, the state of the cache file, the
  outcome of the upstream axios fetch, the outcome of the location-info
  lookup, and the current ISO timestamp.  Its output is the JSON response
  together with the cache document passed to `saveCache` (if reached).
-/

namespace MyBusinessReviews

/-- One review record as the core logic sees it. -/
structure Review where
  reviewId : String
  createTime : Option Int
  starRating : String
  comment : String
  deriving DecidableEq, Repr

/-- The sort comparator of `mergeReviews` as the engine observes it
through SortCompare: `(a, b) => dateB - dateA`, with a `NaN` result
coerced to `+0` (ECMA-262 SortCompare: if v is NaN, return +0).
Negative means `a` must precede `b`, positive the opposite, and every
comparison touching an unparseable `createTime` is a tie — which makes
the comparator inconsistent whenever such a record is present. -/
def dateCompare (a b : Review) : Int :=
  match a.createTime, b.createTime with
  | some ta, some tb => tb - ta
  | _, _ => 0

/-- Placeholder record for index reads; every call site stays within
bounds. -/
def dfltReview : Review :=
  { reviewId := "", createTime := none, starRating := "", comment := "" }

/-- TimSort run detection, ascending side: after `prev`, keep consuming
elements while the comparator of (next, previous) is not negative.
Returns the consumed extension and the remainder. -/
def ascRun (prev : Review) : List Review → List Review × List Review
  | [] => ([], [])
  | y :: ys =>
    if 0 ≤ dateCompare y prev then
      let p := ascRun y ys
      (y :: p.1, p.2)
    else ([], y :: ys)

/-- TimSort run detection, descending side: consume while the comparator
of (next, previous) is strictly negative (strictness keeps the later
reversal stable). -/
def descRun (prev : Review) : List Review → List Review × List Review
  | [] => ([], [])
  | y :: ys =>
    if dateCompare y prev < 0 then
      let p := descRun y ys
      (y :: p.1, p.2)
    else ([], y :: ys)

/-- The initial run of the engine's TimSort (CountAndMakeRun): the
longest ascending prefix, or the longest strictly descending prefix
reversed. -/
def initialRun : List Review → List Review × List Review
  | [] => ([], [])
  | [x] => ([x], [])
  | x :: y :: ys =>
    if dateCompare y x < 0 then
      let p := descRun y ys
      ((x :: y :: p.1).reverse, p.2)
    else
      let p := ascRun y ys
      (x :: y :: p.1, p.2)

/-- The binary search of the engine's binary insertion, written with an
explicit fuel so that it computes by structural recursion; the fuel
`right - left` supplied by `binPos` always suffices, since every step
shrinks the slice.  The right bound moves when the comparator of
(pivot, element at mid) is negative, the left bound otherwise — so ties
insert after, keeping the sort stable. -/
def binPosAux (pivot : Review) (xs : List Review) :
    Nat → Nat → Nat → Nat
  | 0, left, _ => left
  | fuel + 1, left, right =>
    if left < right then
      if dateCompare pivot (xs.getD ((left + right) / 2) dfltReview) < 0 then
        binPosAux pivot xs fuel left ((left + right) / 2)
      else
        binPosAux pivot xs fuel ((left + right) / 2 + 1) right
    else left

/-- The insertion point for `pivot` within the sorted slice
`[left, right)`. -/
def binPos (pivot : Review) (xs : List Review) (left right : Nat) : Nat :=
  binPosAux pivot xs (right - left) left right

/-- The binary-insertion phase: each remaining element goes into the
growing sorted run at its binary-search position. -/
def binaryInsertAll (run : List Review) : List Review → List Review
  | [] => run
  | x :: xs => binaryInsertAll (run.insertIdx (binPos x run 0 run.length) x) xs

/-- `merged.sort((a, b) => dateB - dateA)`: the engine's sort, modelled
exactly as V8's TimSort executes it on arrays shorter than 64 elements
(one CountAndMakeRun followed by stable binary insertion of the rest).
For a consistent comparator — every `createTime` parseable — this is the
mandated stable sort and agrees with the engine at any length; with
unparseable `createTime`s the language standard leaves the order
implementation-defined. -/
def sortReviews (l : List Review) : List Review :=
  binaryInsertAll (initialRun l).1 (initialRun l).2

/-- Association-list model of the JS `Map` used in `mergeReviews`:
`Map.set` overwrites the value in place for an existing key and appends a
new key at the end (JS maps preserve insertion order). -/
def mapSet (m : List (String × Review)) (k : String) (v : Review) :
    List (String × Review) :=
  if m.any (fun p => p.1 = k) then
    m.map (fun p => if p.1 = k then (k, v) else p)
  else m ++ [(k, v)]

/-- One `forEach` pass of `mergeReviews`: records with a truthy
`reviewId` are `set` into the map, others are skipped. -/
def addReviews (m : List (String × Review)) (rs : List Review) :
    List (String × Review) :=
  rs.foldl (fun m r => if r.reviewId ≠ "" then mapSet m r.reviewId r else m) m

/-- `mergeReviews(cachedReviews, newReviews)` from the source: build a map
from the cached records, overwrite/add the incoming records, take the
values and sort newest-first. -/
def mergeReviews (cachedReviews newReviews : List Review) : List Review :=
  sortReviews ((addReviews (addReviews [] cachedReviews) newReviews).map Prod.snd)

/-- The JSON document stored in `reviews-cache.json` once parsed.
`reviews = none` models a document that parses as JSON but does not carry
a usable `reviews` array (missing key / wrong type): `loadCache` returns
it unnormalized and `cachedReviews.forEach` then throws. -/
structure CacheDoc where
  reviews : Option (List Review)
  lastUpdated : Option String
  deriving DecidableEq, Repr

/-- State of the cache file on disk as `loadCache` can observe it. -/
inductive FileState where
  /-- `fs.existsSync` is false. -/
  | absent
  /-- The file exists but reading or `JSON.parse` throws. -/
  | corrupt
  /-- The file exists and parses to `doc`. -/
  | stored (doc : CacheDoc)
  deriving DecidableEq, Repr

/-- The empty snapshot `{ reviews: [], lastUpdated: null }`. -/
def emptyCache : CacheDoc := { reviews := some [], lastUpdated := none }

/-- `loadCache()` from the source: parse the file if present, fall back to
the empty snapshot when the file is absent or unreadable/unparseable.  A
document that parses is returned as-is, without normalization. -/
def loadCache : FileState → CacheDoc
  | .absent => emptyCache
  | .corrupt => emptyCache
  | .stored doc => doc

/-- The `mergeReviews(cache.reviews, newReviews)` call site: when the
loaded document has no reviews array, `cachedReviews.forEach` throws a
`TypeError` (propagated to the route's outer catch); otherwise the merge
runs. -/
def mergeReviewsAt (cachedReviews : Option (List Review))
    (newReviews : List Review) : Except String (List Review) :=
  match cachedReviews with
  | none => .error "TypeError: cachedReviews.forEach is not a function"
  | some c => .ok (mergeReviews c newReviews)

/-- The own property names of `Object.prototype` (ECMA-262 and the
Annex B legacy accessors): reading any of them on a plain object literal
yields a truthy function or object. -/
def objectProtoMembers : List String :=
  ["constructor", "hasOwnProperty", "isPrototypeOf", "propertyIsEnumerable",
   "toLocaleString", "toString", "valueOf", "__proto__", "__defineGetter__",
   "__defineSetter__", "__lookupGetter__", "__lookupSetter__"]

/-- Outcome of the property read `starValues[s]` on the five-rating
object literal. -/
inductive StarLookup where
  /-- An own property of the literal: one of the five ratings. -/
  | num (n : Nat)
  /-- A truthy member inherited through the prototype chain. -/
  | protoMember
  /-- Absent on the literal and its prototype: `undefined`. -/
  | missing
  deriving DecidableEq, Repr

/-- `starValues[s]` from the source: the literal's own properties first,
then the `Object.prototype` chain. -/
def starValues (s : String) : StarLookup :=
  if s = "FIVE" then .num 5
  else if s = "FOUR" then .num 4
  else if s = "THREE" then .num 3
  else if s = "TWO" then .num 2
  else if s = "ONE" then .num 1
  else if s ∈ objectProtoMembers then .protoMember
  else .missing

/-- The reduce accumulator: a JS number until a truthy inherited member
is added; from then on a non-numeric string (number + function/object
concatenates the function source or "[object Object]", and every later
addition keeps the string non-numeric). -/
inductive JsAcc where
  | num (n : Nat)
  | poisonedStr
  deriving DecidableEq, Repr

/-- One reduce step: `acc + (starValues[review.starRating] || 0)`.  The
five own properties are non-zero, hence truthy; `undefined` falls back
to 0; an inherited member is truthy and poisons the accumulator. -/
def addStar (acc : JsAcc) (s : String) : JsAcc :=
  match starValues s with
  | .num v =>
    match acc with
    | .num a => .num (a + v)
    | .poisonedStr => .poisonedStr
  | .protoMember => .poisonedStr
  | .missing => acc

/-- The reduce accumulating the star values of the merged list. -/
def ratingSum (l : List Review) : JsAcc :=
  l.foldl (fun acc r => addStar acc r.starRating) (.num 0)

/-- A JS number as observable in the response: a finite value, or NaN
(a non-numeric string divided by a count). -/
inductive JsNumber where
  | num (q : Rat)
  | nan
  deriving DecidableEq, Repr

/-- `averageRating` of the success path: `sum / length` when the list is
non-empty — NaN once the sum was poisoned — and the initial 0 otherwise.
JS numbers on the clean integer ratios are modelled as rationals. -/
def averageRating (l : List Review) : JsNumber :=
  if 0 < l.length then
    match ratingSum l with
    | .num s => .num ((s : Rat) / (l.length : Rat))
    | .poisonedStr => .nan
  else .num 0

/-- Result of the `businessInfoClient.locations.get` enrichment. -/
structure LocationInfo where
  title : Option String
  placeId : Option String
  deriving DecidableEq, Repr

/-- JS `a || b` on possibly-absent strings: an empty string is falsy. -/
def jsStringOr (a b : Option String) : Option String :=
  match a with
  | some s => if s = "" then b else some s
  | none => b

/-- The `cacheInfo` object of the response. -/
structure CacheInfo where
  totalCached : Nat
  newFromGoogle : Nat
  lastUpdated : Option String
  deriving DecidableEq, Repr

/-- The JSON body sent by the `/reviews` route, together with the HTTP
status.  Fields that a given path does not emit are `none` / defaults. -/
structure ReviewsResponse where
  status : Nat
  error : Option String
  reviews : List Review
  averageRating : JsNumber
  totalReviewCount : Nat
  name : Option String
  placeId : Option String
  cached : Option Bool
  cacheInfo : Option CacheInfo
  deriving DecidableEq, Repr

/-- A request cycle's outcome: the response plus the document handed to
`saveCache` (`none` when the save is never reached). -/
structure HandlerResult where
  response : ReviewsResponse
  saved : Option CacheDoc
  deriving DecidableEq, Repr

/-- The outer `catch` of the `/reviews` route: re-load the cache and send
a 500 with whatever records are stored, `cached: true`, zero newly
fetched, a fixed 0 average, and no name/placeId fields.  Nothing is
merged or persisted here. -/
def degradedResponse (e : String) (file : FileState) : HandlerResult :=
  let cache := loadCache file
  let revs := cache.reviews.getD []
  { response :=
      { status := 500
        error := some e
        reviews := revs
        averageRating := .num 0
        totalReviewCount := revs.length
        name := none
        placeId := none
        cached := some true
        cacheInfo := some
          { totalCached := revs.length
            newFromGoogle := 0
            lastUpdated := cache.lastUpdated } }
    saved := none }

/-- `reviewsResponse.data.reviews || []` on a successful fetch, `[]` when
the fetch threw (the inner catch leaves `newReviews` at its initial
value). -/
def fetchedReviews (fetched : Except String (Option (List Review))) :
    List Review :=
  match fetched with
  | .ok r => r.getD []
  | .error _ => []

/-- True when the inner fetch catch ran (`fetchError` is non-null). -/
def fetchFailed (fetched : Except String (Option (List Review))) : Bool :=
  match fetched with
  | .ok _ => false
  | .error _ => true

/-- The `/reviews` route handler as a function of its request-cycle
inputs: the `LOCATION_NAME` and `PLACE_ID` environment values, the cache
file state, the axios fetch outcome, the location-info lookup outcome,
and the current ISO timestamp used by `new Date().toISOString()`. -/
def getReviews (locationName placeIdEnv : Option String) (file : FileState)
    (fetched : Except String (Option (List Review)))
    (locInfo : Except String LocationInfo) (now : String) : HandlerResult :=
  match jsStringOr locationName none with
  | none =>
    { response :=
        { status := 400
          error := some "LOCATION_NAME not configured"
          reviews := []
          averageRating := .num 0
          totalReviewCount := 0
          name := none
          placeId := none
          cached := none
          cacheInfo := none }
      saved := none }
  | some _ =>
    let cache := loadCache file
    let newReviews := fetchedReviews fetched
    match mergeReviewsAt cache.reviews newReviews with
    | .error e => degradedResponse e file
    | .ok allReviews =>
      let locationInfo : LocationInfo :=
        match locInfo with
        | .ok i => i
        | .error _ => { title := none, placeId := none }
      { response :=
          { status := 200
            error := none
            reviews := allReviews
            averageRating := averageRating allReviews
            totalReviewCount := allReviews.length
            name := some ((jsStringOr locationInfo.title none).getD "Our Business")
            placeId := jsStringOr placeIdEnv (jsStringOr locationInfo.placeId none)
            cached := some (fetchFailed fetched)
            cacheInfo := some
              { totalCached := allReviews.length
                newFromGoogle := newReviews.length
                lastUpdated := cache.lastUpdated } }
        saved := some { reviews := some allReviews, lastUpdated := some now } }

/-! ### Lemmas about the sort -/

theorem dateCompare_antisymm (a b : Review) : dateCompare a b = - dateCompare b a := by
  unfold dateCompare
  rcases a.createTime with _ | ta <;> rcases b.createTime with _ | tb <;> simp <;> omega

/-- Adjacent pair the engine accepts inside a run: the comparator of
(second, first) is not negative. -/
def sortedPair (a b : Review) : Prop := 0 ≤ dateCompare b a

theorem insertIdx_perm (a : Review) :
    ∀ (l : List Review) (n : Nat), n ≤ l.length →
      (l.insertIdx n a).Perm (a :: l) := by
  intro l
  induction l with
  | nil =>
    intro n hn
    have : n = 0 := by simpa using hn
    subst this
    simp [List.insertIdx_zero]
  | cons x xs ih =>
    intro n hn
    rcases n with _ | n
    · simp [List.insertIdx_zero]
    · rw [List.insertIdx_succ_cons]
      exact ((ih n (by simpa using hn)).cons x).trans (List.Perm.swap a x xs)

theorem ascRun_append (prev : Review) : ∀ (l : List Review),
    (ascRun prev l).1 ++ (ascRun prev l).2 = l := by
  intro l
  induction l generalizing prev with
  | nil => rfl
  | cons y ys ih =>
    unfold ascRun
    split
    · show y :: (ascRun y ys).1 ++ (ascRun y ys).2 = y :: ys
      rw [List.cons_append, ih y]
    · rfl

theorem descRun_append (prev : Review) : ∀ (l : List Review),
    (descRun prev l).1 ++ (descRun prev l).2 = l := by
  intro l
  induction l generalizing prev with
  | nil => rfl
  | cons y ys ih =>
    unfold descRun
    split
    · show y :: (descRun y ys).1 ++ (descRun y ys).2 = y :: ys
      rw [List.cons_append, ih y]
    · rfl

theorem initialRun_cons (x y : Review) (ys : List Review) :
    initialRun (x :: y :: ys) =
      if dateCompare y x < 0 then
        ((x :: y :: (descRun y ys).1).reverse, (descRun y ys).2)
      else (x :: y :: (ascRun y ys).1, (ascRun y ys).2) := rfl

theorem initialRun_perm : ∀ (l : List Review),
    ((initialRun l).1 ++ (initialRun l).2).Perm l := by
  intro l
  rcases l with _ | ⟨x, _ | ⟨y, ys⟩⟩
  · exact List.Perm.refl _
  · exact List.Perm.refl _
  · rw [initialRun_cons]
    by_cases hc : dateCompare y x < 0
    · rw [if_pos hc]
      show ((x :: y :: (descRun y ys).1).reverse ++ (descRun y ys).2).Perm _
      refine ((List.reverse_perm _).append_right _).trans ?_
      show (x :: y :: (descRun y ys).1 ++ (descRun y ys).2).Perm (x :: y :: ys)
      rw [List.cons_append, List.cons_append, descRun_append y ys]
    · rw [if_neg hc]
      show (x :: y :: (ascRun y ys).1 ++ (ascRun y ys).2).Perm (x :: y :: ys)
      rw [List.cons_append, List.cons_append, ascRun_append y ys]

theorem binPosAux_zero (pivot : Review) (xs : List Review)
    (left right : Nat) : binPosAux pivot xs 0 left right = left := rfl

theorem binPosAux_succ (pivot : Review) (xs : List Review)
    (n left right : Nat) :
    binPosAux pivot xs (n + 1) left right =
      if left < right then
        if dateCompare pivot (xs.getD ((left + right) / 2) dfltReview) < 0 then
          binPosAux pivot xs n left ((left + right) / 2)
        else binPosAux pivot xs n ((left + right) / 2 + 1) right
      else left := rfl

theorem binPosAux_bounds (pivot : Review) (xs : List Review) :
    ∀ (n left right : Nat), right - left ≤ n → left ≤ right →
      left ≤ binPosAux pivot xs n left right ∧
        binPosAux pivot xs n left right ≤ right := by
  intro n
  induction n with
  | zero =>
    intro left right hn hlr
    rw [binPosAux_zero]
    omega
  | succ n ih =>
    intro left right hn hlr
    by_cases h : left < right
    · by_cases hc : dateCompare pivot
          (xs.getD ((left + right) / 2) dfltReview) < 0
      · rw [binPosAux_succ, if_pos h, if_pos hc]
        have := ih left ((left + right) / 2) (by omega) (by omega)
        omega
      · rw [binPosAux_succ, if_pos h, if_neg hc]
        have := ih ((left + right) / 2 + 1) right (by omega) (by omega)
        omega
    · rw [binPosAux_succ, if_neg h]
      omega

theorem binPos_le (pivot : Review) (xs : List Review) (left right : Nat)
    (h : left ≤ right) :
    left ≤ binPos pivot xs left right ∧ binPos pivot xs left right ≤ right :=
  binPosAux_bounds pivot xs (right - left) left right le_rfl h

theorem binPosAux_left_fact (pivot : Review) (xs : List Review) :
    ∀ (n left right : Nat), right - left ≤ n → left ≤ right →
      left < binPosAux pivot xs n left right →
      ¬ dateCompare pivot
        (xs.getD (binPosAux pivot xs n left right - 1) dfltReview) < 0 := by
  intro n
  induction n with
  | zero =>
    intro left right hn hlr hlt
    rw [binPosAux_zero] at hlt
    omega
  | succ n ih =>
    intro left right hn hlr hlt
    by_cases h : left < right
    · by_cases hc : dateCompare pivot
          (xs.getD ((left + right) / 2) dfltReview) < 0
      · rw [binPosAux_succ, if_pos h, if_pos hc] at hlt ⊢
        exact ih left ((left + right) / 2) (by omega) (by omega) hlt
      · rw [binPosAux_succ, if_pos h, if_neg hc] at hlt ⊢
        have hb := (binPosAux_bounds pivot xs n ((left + right) / 2 + 1) right
          (by omega) (by omega)).1
        rcases Nat.eq_or_lt_of_le hb with heq | hgt
        · rw [← heq]
          simpa using hc
        · exact ih ((left + right) / 2 + 1) right (by omega) (by omega) hgt
    · rw [binPosAux_succ, if_neg h] at hlt
      omega

theorem binPosAux_right_fact (pivot : Review) (xs : List Review) :
    ∀ (n left right : Nat), right - left ≤ n → left ≤ right →
      binPosAux pivot xs n left right < right →
      dateCompare pivot
        (xs.getD (binPosAux pivot xs n left right) dfltReview) < 0 := by
  intro n
  induction n with
  | zero =>
    intro left right hn hlr hlt
    rw [binPosAux_zero] at hlt
    omega
  | succ n ih =>
    intro left right hn hlr hlt
    by_cases h : left < right
    · by_cases hc : dateCompare pivot
          (xs.getD ((left + right) / 2) dfltReview) < 0
      · rw [binPosAux_succ, if_pos h, if_pos hc] at hlt ⊢
        have hb := (binPosAux_bounds pivot xs n left ((left + right) / 2)
          (by omega) (by omega)).2
        rcases Nat.eq_or_lt_of_le hb with heq | hgt
        · rw [heq]
          exact hc
        · exact ih left ((left + right) / 2) (by omega) (by omega) hgt
      · rw [binPosAux_succ, if_pos h, if_neg hc] at hlt ⊢
        exact ih ((left + right) / 2 + 1) right (by omega) (by omega) hlt
    · rw [binPosAux_succ, if_neg h] at hlt
      omega

theorem binPos_left_fact (pivot : Review) (xs : List Review)
    (left right : Nat) (h : left ≤ right)
    (hlt : left < binPos pivot xs left right) :
    ¬ dateCompare pivot
      (xs.getD (binPos pivot xs left right - 1) dfltReview) < 0 :=
  binPosAux_left_fact pivot xs (right - left) left right le_rfl h hlt

theorem binPos_right_fact (pivot : Review) (xs : List Review)
    (left right : Nat) (h : left ≤ right)
    (hlt : binPos pivot xs left right < right) :
    dateCompare pivot
      (xs.getD (binPos pivot xs left right) dfltReview) < 0 :=
  binPosAux_right_fact pivot xs (right - left) left right le_rfl h hlt

theorem chain'_insertIdx (p : Review) :
    ∀ (xs : List Review) (pos : Nat), List.Chain' sortedPair xs →
      pos ≤ xs.length →
      (0 < pos → sortedPair (xs.getD (pos - 1) dfltReview) p) →
      (pos < xs.length → sortedPair p (xs.getD pos dfltReview)) →
      List.Chain' sortedPair (xs.insertIdx pos p) := by
  intro xs
  induction xs with
  | nil =>
    intro pos hch hlen hL hR
    have : pos = 0 := by simpa using hlen
    subst this
    simp [List.insertIdx_zero]
  | cons a xs ih =>
    intro pos hch hlen hL hR
    rcases pos with _ | n
    · rw [List.insertIdx_zero, List.chain'_cons']
      refine ⟨?_, hch⟩
      intro y hy
      simp at hy
      subst hy
      simpa using hR (by simp)
    · rw [List.insertIdx_succ_cons, List.chain'_cons']
      constructor
      · intro y hy
        rcases n with _ | m
        · rw [List.insertIdx_zero] at hy
          simp at hy
          subst hy
          simpa using hL (by omega)
        · rcases xs with _ | ⟨b, xs2⟩
          · simp at hlen
          · rw [List.insertIdx_succ_cons] at hy
            simp at hy
            subst hy
            exact (List.chain'_cons.mp hch).1
      · refine ih n (List.chain'_cons'.mp hch).2 (by simpa using hlen) ?_ ?_
        · intro hn
          rcases n with _ | m
          · omega
          · simpa using hL (by omega)
        · intro hn
          simpa using hR (by simpa using Nat.succ_lt_succ hn)

theorem binaryInsertAll_chain : ∀ (rest run : List Review),
    List.Chain' sortedPair run →
    List.Chain' sortedPair (binaryInsertAll run rest) := by
  intro rest
  induction rest with
  | nil => intro run h; exact h
  | cons x xs ih =>
    intro run h
    show List.Chain' sortedPair
      (binaryInsertAll (run.insertIdx (binPos x run 0 run.length) x) xs)
    refine ih _ ?_
    have hb := binPos_le x run 0 run.length (by omega)
    refine chain'_insertIdx x run _ h hb.2 ?_ ?_
    · intro hpos
      have := binPos_left_fact x run 0 run.length (by omega) hpos
      unfold sortedPair
      omega
    · intro hpos
      have := binPos_right_fact x run 0 run.length (by omega) hpos
      unfold sortedPair
      rw [dateCompare_antisymm]
      omega

theorem binaryInsertAll_perm : ∀ (rest run : List Review),
    (binaryInsertAll run rest).Perm (run ++ rest) := by
  intro rest
  induction rest with
  | nil => intro run; simp [binaryInsertAll]
  | cons x xs ih =>
    intro run
    show (binaryInsertAll (run.insertIdx (binPos x run 0 run.length) x) xs).Perm _
    refine (ih _).trans ?_
    have h1 : (run.insertIdx (binPos x run 0 run.length) x).Perm (x :: run) :=
      insertIdx_perm x run _ (binPos_le x run 0 run.length (by omega)).2
    refine (h1.append_right xs).trans ?_
    simpa using (@List.perm_middle _ x run xs).symm

theorem ascRun_chain (prev : Review) : ∀ (l : List Review),
    List.Chain' sortedPair (prev :: (ascRun prev l).1) := by
  intro l
  induction l generalizing prev with
  | nil => simp [ascRun]
  | cons y ys ih =>
    unfold ascRun
    split
    · rename_i hc
      show List.Chain' sortedPair (prev :: y :: (ascRun y ys).1)
      rw [List.chain'_cons]
      exact ⟨hc, ih y⟩
    · simp

theorem descRun_chain (prev : Review) : ∀ (l : List Review),
    List.Chain' (fun a b => dateCompare b a < 0) (prev :: (descRun prev l).1) := by
  intro l
  induction l generalizing prev with
  | nil => simp [descRun]
  | cons y ys ih =>
    unfold descRun
    split
    · rename_i hc
      show List.Chain' _ (prev :: y :: (descRun y ys).1)
      rw [List.chain'_cons]
      exact ⟨hc, ih y⟩
    · simp

theorem initialRun_chain : ∀ (l : List Review),
    List.Chain' sortedPair (initialRun l).1 := by
  intro l
  rcases l with _ | ⟨x, _ | ⟨y, ys⟩⟩
  · simp [initialRun]
  · simp [initialRun]
  · rw [initialRun_cons]
    by_cases hc : dateCompare y x < 0
    · rw [if_pos hc]
      show List.Chain' sortedPair (x :: y :: (descRun y ys).1).reverse
      rw [List.chain'_reverse]
      have hstrict : List.Chain' (fun a b => dateCompare b a < 0)
          (x :: y :: (descRun y ys).1) := by
        rw [List.chain'_cons]
        exact ⟨hc, descRun_chain y ys⟩
      refine hstrict.imp ?_
      intro a b hab
      show sortedPair b a
      unfold sortedPair
      rw [dateCompare_antisymm]
      omega
    · rw [if_neg hc]
      show List.Chain' sortedPair (x :: y :: (ascRun y ys).1)
      rw [List.chain'_cons]
      exact ⟨by unfold sortedPair; omega, ascRun_chain y ys⟩

/-- Every output of the engine's sort is a chain for the comparator. -/
theorem sortReviews_chain (l : List Review) :
    List.Chain' sortedPair (sortReviews l) :=
  binaryInsertAll_chain _ _ (initialRun_chain l)

/-- The sort step loses and duplicates nothing. -/
theorem sortReviews_perm (l : List Review) : (sortReviews l).Perm l := by
  unfold sortReviews
  exact (binaryInsertAll_perm _ _).trans (initialRun_perm l)

theorem ascRun_of_chain (prev : Review) : ∀ (l : List Review),
    List.Chain' sortedPair (prev :: l) → ascRun prev l = (l, []) := by
  intro l
  induction l generalizing prev with
  | nil => intro _; rfl
  | cons y ys ih =>
    intro h
    rcases List.chain'_cons.mp h with ⟨h1, h2⟩
    unfold sortedPair at h1
    unfold ascRun
    rw [if_pos h1, ih y h2]

/-- A list the run detection accepts whole is a fixed point of the
sort. -/
theorem sortReviews_of_chain : ∀ {l : List Review},
    List.Chain' sortedPair l → sortReviews l = l := by
  intro l h
  rcases l with _ | ⟨x, _ | ⟨y, ys⟩⟩
  · rfl
  · rfl
  · rcases List.chain'_cons.mp h with ⟨h1, h2⟩
    unfold sortReviews
    rw [initialRun_cons, if_neg (by unfold sortedPair at h1; omega)]
    rw [ascRun_of_chain y ys h2]
    rfl

theorem sortReviews_idem (l : List Review) :
    sortReviews (sortReviews l) = sortReviews l :=
  sortReviews_of_chain (sortReviews_chain l)

theorem chain'_imp_mem {S R : Review → Review → Prop} :
    ∀ {l : List Review}, List.Chain' S l →
      (∀ a ∈ l, ∀ b ∈ l, S a b → R a b) → List.Chain' R l := by
  intro l
  induction l with
  | nil => intro _ _; simp
  | cons x xs ih =>
    intro h himp
    rw [List.chain'_cons'] at h ⊢
    refine ⟨?_, ih h.2 (fun a ha b hb hS => himp a (by simp [ha]) b (by simp [hb]) hS)⟩
    intro y hy
    have hyx : y ∈ xs := by
      rcases xs with _ | ⟨z, zs⟩
      · simp at hy
      · simp at hy
        subst hy
        simp
    exact himp x (by simp) y (by simp [hyx]) (h.1 y hy)

theorem chain'_pairwise_trans {R : Review → Review → Prop}
    (htrans : ∀ a b c, R a b → R b c → R a c) :
    ∀ {l : List Review}, List.Chain' R l → List.Pairwise R l := by
  intro l
  induction l with
  | nil => intro _; simp
  | cons x xs ih =>
    intro h
    have hx := (List.chain'_cons'.mp h).2
    have hpxs := ih hx
    rw [List.pairwise_cons]
    refine ⟨?_, hpxs⟩
    rcases xs with _ | ⟨y, ys⟩
    · simp
    · have hxy : R x y := (List.chain'_cons.mp h).1
      intro z hz
      rcases List.mem_cons.mp hz with hz | hz
      · exact hz ▸ hxy
      · exact htrans x y z hxy ((List.pairwise_cons.mp hpxs).1 z hz)

/-- The numeric timestamp; meaningful only where `createTime` parses. -/
def jsTime (r : Review) : Int := r.createTime.getD 0

/-- When every record in play has a parseable `createTime` the comparator
is consistent, and the engine's sort output is sorted newest-first. -/
theorem sortReviews_pairwise_of_parseable {l : List Review}
    (h : ∀ r ∈ l, r.createTime.isSome) :
    (sortReviews l).Pairwise (fun a b => jsTime b ≤ jsTime a) := by
  have hmem : ∀ r ∈ sortReviews l, r.createTime.isSome :=
    fun r hr => h r ((sortReviews_perm l).mem_iff.mp hr)
  have htrans : ∀ a b c : Review, jsTime b ≤ jsTime a → jsTime c ≤ jsTime b →
      jsTime c ≤ jsTime a := fun a b c h1 h2 => le_trans h2 h1
  refine chain'_pairwise_trans htrans ?_
  refine chain'_imp_mem (sortReviews_chain l) ?_
  intro a ha b hb hS
  rcases Option.isSome_iff_exists.mp (hmem a ha) with ⟨ta, hta⟩
  rcases Option.isSome_iff_exists.mp (hmem b hb) with ⟨tb, htb⟩
  unfold sortedPair dateCompare at hS
  rw [hta, htb] at hS
  have hS2 : 0 ≤ ta - tb := hS
  simp only [jsTime, hta, htb, Option.getD_some]
  omega

/-! ### Lemmas about the map phase of the merge -/

/-- The key sequence of the map (JS map iteration order). -/
def keysOf (m : List (String × Review)) : List String := m.map Prod.fst

/-- `Map.get`: the value stored at a key. -/
def lookupId (m : List (String × Review)) (k : String) : Option Review :=
  (m.find? (fun p => p.1 = k)).map Prod.snd

/-- The last record of `rs` that writes key `k` during a `forEach` pass
(none when `k` is empty or never written). -/
def lastWrite (rs : List Review) (k : String) : Option Review :=
  rs.foldl (fun acc r => if r.reviewId = k ∧ k ≠ "" then some r else acc) none

/-- The records of `l` carrying a truthy `reviewId` carry pairwise
distinct ids (invariant I1 of the snapshot). -/
def distinctIds (l : List Review) : Prop :=
  ((l.filter (fun r => r.reviewId ≠ "")).map Review.reviewId).Nodup

instance (l : List Review) : Decidable (distinctIds l) := by
  unfold distinctIds; infer_instance

theorem mapSet_of_not_mem {A : List (String × Review)} {k : String}
    (v : Review) (h : k ∉ keysOf A) : mapSet A k v = A ++ [(k, v)] := by
  unfold mapSet
  rw [if_neg]
  simp only [List.any_eq_true, decide_eq_true_eq, not_exists, not_and]
  intro p hp hpk
  exact h (by exact List.mem_map.mpr ⟨p, hp, hpk⟩)

theorem keysOf_mapSet_of_mem {A : List (String × Review)} {k : String}
    (v : Review) (h : k ∈ keysOf A) : keysOf (mapSet A k v) = keysOf A := by
  unfold mapSet
  rw [if_pos]
  · unfold keysOf
    rw [List.map_map]
    refine List.map_congr_left ?_
    intro p _
    by_cases hpk : p.1 = k <;> simp [hpk]
  · rcases List.mem_map.mp h with ⟨p, hp, hpk⟩
    exact List.any_eq_true.mpr ⟨p, hp, by simpa using hpk⟩

theorem lookupId_map_overwrite {A : List (String × Review)} {k k' : String}
    (v : Review) (h : k' ≠ k) :
    lookupId (A.map (fun p => if p.1 = k then (k, v) else p)) k' = lookupId A k' := by
  induction A with
  | nil => rfl
  | cons p A ih =>
    by_cases hpk : p.1 = k
    · have hk' : ¬ ((k, v).1 = k') := by simpa using (Ne.symm h)
      have hp' : ¬ (p.1 = k') := by rw [hpk]; exact Ne.symm h
      simp only [List.map_cons, hpk, if_true, lookupId, List.find?_cons, hk', hp']
      simpa [lookupId] using ih
    · simp only [List.map_cons, hpk, if_false, lookupId, List.find?_cons]
      by_cases hp' : p.1 = k'
      · simp [hp']
      · simpa [hp', lookupId] using ih

theorem lookupId_mapSet_ne {A : List (String × Review)} {k k' : String}
    (v : Review) (h : k' ≠ k) : lookupId (mapSet A k v) k' = lookupId A k' := by
  unfold mapSet
  split
  · exact lookupId_map_overwrite v h
  · unfold lookupId
    rw [List.find?_append]
    have : List.find? (fun p => decide (p.1 = k')) [(k, v)] = none := by
      simp [List.find?, Ne.symm h]
    rw [this, Option.or_none]

theorem lookupId_eq_none_of_not_mem {A : List (String × Review)} {k : String}
    (h : k ∉ keysOf A) : lookupId A k = none := by
  unfold lookupId
  rw [List.find?_eq_none.mpr]
  · rfl
  · intro p hp
    simp only [decide_eq_true_eq]
    intro hpk
    exact h (List.mem_map.mpr ⟨p, hp, hpk⟩)

theorem lookupId_map_overwrite_self {A : List (String × Review)} {k : String}
    (v : Review) (h : k ∈ keysOf A) :
    lookupId (A.map (fun p => if p.1 = k then (k, v) else p)) k = some v := by
  induction A with
  | nil => simp [keysOf] at h
  | cons p A ih =>
    by_cases hpk : p.1 = k
    · simp [lookupId, List.find?_cons, hpk]
    · have h' : k ∈ keysOf A := by
        rcases List.mem_map.mp h with ⟨q, hq, hqk⟩
        rcases List.mem_cons.mp hq with hq | hq
        · exact absurd (hq ▸ hqk) hpk
        · exact List.mem_map.mpr ⟨q, hq, hqk⟩
      simpa [lookupId, List.find?_cons, hpk] using ih h'

theorem lookupId_mapSet_self (A : List (String × Review)) (k : String)
    (v : Review) : lookupId (mapSet A k v) k = some v := by
  by_cases h : k ∈ keysOf A
  · unfold mapSet
    rw [if_pos]
    · exact lookupId_map_overwrite_self v h
    · rcases List.mem_map.mp h with ⟨p, hp, hpk⟩
      exact List.any_eq_true.mpr ⟨p, hp, by simpa using hpk⟩
  · rw [mapSet_of_not_mem v h]
    unfold lookupId
    rw [List.find?_append, List.find?_eq_none.mpr, Option.none_or]
    · simp [List.find?]
    · intro p hp
      simp only [decide_eq_true_eq]
      intro hpk
      exact h (List.mem_map.mpr ⟨p, hp, hpk⟩)

theorem lastWrite_foldl (rs : List Review) (k : String) (a : Option Review) :
    rs.foldl (fun acc r => if r.reviewId = k ∧ k ≠ "" then some r else acc) a
      = (lastWrite rs k).or a := by
  induction rs generalizing a with
  | nil => simp [lastWrite]
  | cons r rs ih =>
    have hRHS : lastWrite (r :: rs) k
        = rs.foldl (fun acc r => if r.reviewId = k ∧ k ≠ "" then some r else acc)
            (if r.reviewId = k ∧ k ≠ "" then some r else none) := rfl
    rw [List.foldl_cons, hRHS, ih, ih]
    rcases lastWrite rs k with _ | v
    · simp only [Option.none_or]
      by_cases hc : r.reviewId = k ∧ k ≠ "" <;> simp [hc]
    · simp

theorem lastWrite_cons (r : Review) (rs : List Review) (k : String) :
    lastWrite (r :: rs) k
      = (lastWrite rs k).or (if r.reviewId = k ∧ k ≠ "" then some r else none) := by
  simp only [lastWrite, List.foldl_cons]
  exact lastWrite_foldl rs k _

theorem lookupId_addReviews (A : List (String × Review)) (rs : List Review)
    (k : String) :
    lookupId (addReviews A rs) k = (lastWrite rs k).or (lookupId A k) := by
  induction rs generalizing A with
  | nil => simp [addReviews, lastWrite]
  | cons r rs ih =>
    have hstep : lookupId (if r.reviewId ≠ "" then mapSet A r.reviewId r else A) k
        = (if r.reviewId = k ∧ k ≠ "" then some r else none).or (lookupId A k) := by
      by_cases hid : r.reviewId = ""
      · have hc : ¬ (r.reviewId = k ∧ k ≠ "") := by
          rintro ⟨rfl, hk⟩; exact hk hid
        rw [if_neg hc]
        simp [hid]
      · by_cases hk : k = r.reviewId
        · subst hk
          simp [hid, lookupId_mapSet_self, Ne.symm hid]
        · have : ¬ (r.reviewId = k ∧ k ≠ "") := by
            rintro ⟨h1, _⟩; exact hk h1.symm
          simp [hid, this, lookupId_mapSet_ne r hk]
    calc lookupId (addReviews A (r :: rs)) k
        = lookupId (addReviews (if r.reviewId ≠ "" then mapSet A r.reviewId r else A) rs) k := by
          simp [addReviews]
      _ = (lastWrite rs k).or
            (lookupId (if r.reviewId ≠ "" then mapSet A r.reviewId r else A) k) := ih _
      _ = (lastWrite rs k).or
            ((if r.reviewId = k ∧ k ≠ "" then some r else none).or (lookupId A k)) := by
          rw [hstep]
      _ = (lastWrite (r :: rs) k).or (lookupId A k) := by
          rw [lastWrite_cons, Option.or_assoc]

theorem lastWrite_mem {rs : List Review} {k : String} {v : Review}
    (h : lastWrite rs k = some v) : v ∈ rs ∧ v.reviewId = k ∧ k ≠ "" := by
  induction rs with
  | nil => simp [lastWrite] at h
  | cons r rs ih =>
    rw [lastWrite_cons] at h
    rcases hx : lastWrite rs k with _ | w
    · rw [hx, Option.none_or] at h
      split at h
      · rename_i hcond
        cases h
        exact ⟨by simp, hcond⟩
      · cases h
    · rw [hx] at h
      simp only [Option.or_some] at h
      cases h
      rcases ih hx with ⟨h1, h2, h3⟩
      exact ⟨by simp [h1], h2, h3⟩

theorem lastWrite_eq_none {rs : List Review} {k : String}
    (h : ∀ r ∈ rs, r.reviewId ≠ k) : lastWrite rs k = none := by
  rcases hx : lastWrite rs k with _ | v
  · rfl
  · rcases lastWrite_mem hx with ⟨h1, h2, _⟩
    exact absurd h2 (h v h1)

theorem distinctIds_tail {x : Review} {l : List Review}
    (h : distinctIds (x :: l)) : distinctIds l := by
  unfold distinctIds at *
  by_cases hx : x.reviewId ≠ ""
  · rw [List.filter_cons_of_pos (by simpa using hx)] at h
    exact (List.nodup_cons.mp h).2
  · rwa [List.filter_cons_of_neg (by simpa using hx)] at h

theorem distinctIds_unique {l : List Review} {r r' : Review}
    (hd : distinctIds l) (hr : r ∈ l) (hr' : r' ∈ l)
    (hid : r.reviewId = r'.reviewId) (hne : r.reviewId ≠ "") : r = r' := by
  have hrf : r ∈ l.filter (fun r => r.reviewId ≠ "") :=
    List.mem_filter.mpr ⟨hr, by simpa using hne⟩
  have hrf' : r' ∈ l.filter (fun r => r.reviewId ≠ "") :=
    List.mem_filter.mpr ⟨hr', by simpa using (hid ▸ hne)⟩
  exact List.inj_on_of_nodup_map hd hrf hrf' hid

theorem lastWrite_ne_none_of_mem {l : List Review} {r : Review} {k : String}
    (hr : r ∈ l) (hk : r.reviewId = k) (hne : k ≠ "") :
    lastWrite l k ≠ none := by
  induction l with
  | nil => simp at hr
  | cons y l ih =>
    rw [lastWrite_cons]
    rcases List.mem_cons.mp hr with hr | hr
    · subst hr
      rw [if_pos ⟨hk, hne⟩]
      rcases lastWrite l k with _ | w <;> simp
    · have := ih hr
      rcases hx : lastWrite l k with _ | w
      · exact absurd hx this
      · simp

theorem lastWrite_of_mem_distinct {l : List Review} {r : Review} {k : String}
    (hd : distinctIds l) (hr : r ∈ l) (hk : r.reviewId = k) (hne : k ≠ "") :
    lastWrite l k = some r := by
  rcases hx : lastWrite l k with _ | v
  · exact absurd hx (lastWrite_ne_none_of_mem hr hk hne)
  · rcases lastWrite_mem hx with ⟨hv, hvk, _⟩
    have := distinctIds_unique hd hr hv (by rw [hk, hvk]) (hk ▸ hne)
    rw [this]

/-- Every map entry stores a record under its own (truthy) id. -/
def pairsOk (A : List (String × Review)) : Prop :=
  ∀ p ∈ A, p.2.reviewId = p.1 ∧ p.1 ≠ ""

theorem mem_mapSet {A : List (String × Review)} {k : String} {v : Review}
    {p : String × Review} (h : p ∈ mapSet A k v) : p ∈ A ∨ p = (k, v) := by
  unfold mapSet at h
  split at h
  · rcases List.mem_map.mp h with ⟨q, hq, hqe⟩
    by_cases hqk : q.1 = k
    · right; rw [← hqe]; simp [hqk]
    · left; rw [← hqe]; simpa [hqk] using hq
  · rcases List.mem_append.mp h with h | h
    · exact Or.inl h
    · right; simpa using h

theorem pairsOk_mapSet {A : List (String × Review)} {k : String} {v : Review}
    (h : pairsOk A) (hv : v.reviewId = k) (hk : k ≠ "") :
    pairsOk (mapSet A k v) := by
  intro p hp
  rcases mem_mapSet hp with hp | hp
  · exact h p hp
  · subst hp; exact ⟨hv, hk⟩

theorem pairsOk_addReviews {A : List (String × Review)} (rs : List Review)
    (h : pairsOk A) : pairsOk (addReviews A rs) := by
  induction rs generalizing A with
  | nil => exact h
  | cons r rs ih =>
    show pairsOk (addReviews (if r.reviewId ≠ "" then mapSet A r.reviewId r else A) rs)
    by_cases hid : r.reviewId = ""
    · simpa [hid] using ih h
    · rw [if_pos (by simpa using hid)]
      exact ih (pairsOk_mapSet h rfl hid)

theorem keysNodup_mapSet {A : List (String × Review)} (k : String) (v : Review)
    (h : (keysOf A).Nodup) : (keysOf (mapSet A k v)).Nodup := by
  by_cases hk : k ∈ keysOf A
  · rw [keysOf_mapSet_of_mem v hk]; exact h
  · rw [mapSet_of_not_mem v hk]
    unfold keysOf at *
    rw [List.map_append]
    simp only [List.map_cons, List.map_nil]
    rw [List.nodup_append]
    have hd : List.Disjoint (A.map Prod.fst) [k] := by
      intro a ha hb
      rw [List.mem_singleton] at hb
      subst hb
      exact hk ha
    exact ⟨h, List.nodup_singleton k, hd⟩

theorem keysNodup_addReviews {A : List (String × Review)} (rs : List Review)
    (h : (keysOf A).Nodup) : (keysOf (addReviews A rs)).Nodup := by
  induction rs generalizing A with
  | nil => exact h
  | cons r rs ih =>
    show ((keysOf (addReviews (if r.reviewId ≠ "" then mapSet A r.reviewId r else A) rs))).Nodup
    by_cases hid : r.reviewId = ""
    · simpa [hid] using ih h
    · rw [if_pos (by simpa using hid)]
      exact ih (keysNodup_mapSet _ _ h)

theorem mem_of_lookupId {A : List (String × Review)} {k : String} {v : Review}
    (h : lookupId A k = some v) : (k, v) ∈ A := by
  unfold lookupId at h
  rcases hf : A.find? (fun p => p.1 = k) with _ | p
  · rw [hf] at h; cases h
  · rw [hf] at h
    have hpk : p.1 = k := by simpa using List.find?_some hf
    have hpA := List.mem_of_find?_eq_some hf
    have h2 : p.2 = v := by simpa using h
    have hpe : p = (k, v) := by rw [← hpk, ← h2]
    exact hpe ▸ hpA

theorem lookupId_of_mem_nodup {A : List (String × Review)} {k : String}
    {v : Review} (hn : (keysOf A).Nodup) (h : (k, v) ∈ A) :
    lookupId A k = some v := by
  induction A with
  | nil => simp at h
  | cons p A ih =>
    unfold keysOf at hn
    simp only [List.map_cons, List.nodup_cons] at hn
    rcases List.mem_cons.mp h with h | h
    · rw [← h]
      simp [lookupId, List.find?_cons]
    · have hpk : p.1 ≠ k := by
        intro hc
        exact hn.1 (hc ▸ List.mem_map.mpr ⟨(k, v), h, rfl⟩)
      simpa [lookupId, List.find?_cons, hpk] using ih hn.2 h

/-! ### The merge map and its characterisation -/

/-- The JS `Map` built by `mergeReviews` after both `forEach` passes. -/
def mergeMap (c n : List Review) : List (String × Review) :=
  addReviews (addReviews [] c) n

theorem mergeReviews_def (c n : List Review) :
    mergeReviews c n = sortReviews ((mergeMap c n).map Prod.snd) := rfl

/-- The entry at key `k` after the merge: the last incoming record with
id `k` if any, else the last cached record with id `k`. -/
theorem mergeMap_lookup (c n : List Review) (k : String) :
    lookupId (mergeMap c n) k = (lastWrite n k).or (lastWrite c k) := by
  unfold mergeMap
  rw [lookupId_addReviews, lookupId_addReviews]
  simp [lookupId]

theorem mergeMap_pairsOk (c n : List Review) : pairsOk (mergeMap c n) :=
  pairsOk_addReviews n (pairsOk_addReviews c (by intro p hp; simp at hp))

theorem mergeMap_keysNodup (c n : List Review) :
    (keysOf (mergeMap c n)).Nodup :=
  keysNodup_addReviews n (keysNodup_addReviews c (by simp [keysOf]))

theorem mem_mergeReviews_of_lookup {c n : List Review} {k : String}
    {v : Review} (h : lookupId (mergeMap c n) k = some v) :
    v ∈ mergeReviews c n := by
  rw [mergeReviews_def]
  refine (sortReviews_perm _).mem_iff.mpr ?_
  exact List.mem_map.mpr ⟨(k, v), mem_of_lookupId h, rfl⟩

theorem lookup_of_mem_mergeReviews {c n : List Review} {v : Review}
    (h : v ∈ mergeReviews c n) :
    lookupId (mergeMap c n) v.reviewId = some v := by
  rw [mergeReviews_def] at h
  have hv := (sortReviews_perm _).mem_iff.mp h
  rcases List.mem_map.mp hv with ⟨p, hp, hpe⟩
  have hok := mergeMap_pairsOk c n p hp
  have : p = (v.reviewId, v) := by
    have h1 : p.2 = v := hpe
    have h2 : p.1 = v.reviewId := by rw [← hok.1, h1]
    rw [← h2, ← h1]
  exact lookupId_of_mem_nodup (mergeMap_keysNodup c n) (this ▸ hp)

/-- Every record of a merge result has a truthy id. -/
theorem mem_mergeReviews_id_ne {c n : List Review} {v : Review}
    (h : v ∈ mergeReviews c n) : v.reviewId ≠ "" := by
  rw [mergeReviews_def] at h
  have hv := (sortReviews_perm _).mem_iff.mp h
  rcases List.mem_map.mp hv with ⟨p, hp, hpe⟩
  have hok := mergeMap_pairsOk c n p hp
  rw [← hpe, hok.1]
  exact hok.2

/-! ### Idempotence of the merge in the incoming list -/

/-- Merge output ids are pairwise distinct (dedup by construction). -/
theorem mergeReviews_ids_nodup (c n : List Review) :
    ((mergeReviews c n).map Review.reviewId).Nodup := by
  have hperm : ((mergeReviews c n).map Review.reviewId).Perm
      (((mergeMap c n).map Prod.snd).map Review.reviewId) :=
    List.Perm.map _ (sortReviews_perm _)
  refine hperm.nodup_iff.mpr ?_
  have : ((mergeMap c n).map Prod.snd).map Review.reviewId = keysOf (mergeMap c n) := by
    unfold keysOf
    rw [List.map_map]
    refine List.map_congr_left ?_
    intro p hp
    exact (mergeMap_pairsOk c n p hp).1
  rw [this]
  exact mergeMap_keysNodup c n

theorem addReviews_eq_append {A : List (String × Review)} {m : List Review}
    (hne : ∀ r ∈ m, r.reviewId ≠ "")
    (hnew : ∀ r ∈ m, r.reviewId ∉ keysOf A)
    (hd : (m.map Review.reviewId).Nodup) :
    addReviews A m = A ++ m.map (fun r => (r.reviewId, r)) := by
  induction m generalizing A with
  | nil => simp [addReviews]
  | cons r m ih =>
    have hr : r.reviewId ≠ "" := hne r (by simp)
    show addReviews (if r.reviewId ≠ "" then mapSet A r.reviewId r else A) m = _
    rw [if_pos (by simpa using hr), mapSet_of_not_mem r (hnew r (by simp))]
    simp only [List.map_cons, List.nodup_cons] at hd
    rw [ih (fun x hx => hne x (by simp [hx]))
        (fun x hx => ?_) hd.2]
    · simp
    · unfold keysOf
      rw [List.map_append]
      simp only [List.map_cons, List.map_nil]
      intro hmem
      rcases List.mem_append.mp hmem with hmem | hmem
      · exact hnew x (by simp [hx]) hmem
      · rw [List.mem_singleton] at hmem
        exact hd.1 (hmem ▸ List.mem_map.mpr ⟨x, hx, rfl⟩)

theorem alist_ext {A : List (String × Review)} :
    ∀ {B : List (String × Review)}, keysOf A = keysOf B → (keysOf A).Nodup →
    (∀ k, lookupId A k = lookupId B k) → A = B := by
  induction A with
  | nil =>
    intro B hk _ _
    have : B.map Prod.fst = [] := by
      simpa [keysOf] using hk.symm
    simpa using List.map_eq_nil_iff.mp this
  | cons p A ih =>
    intro B hk hn hl
    rcases B with _ | ⟨q, B⟩
    · simp [keysOf] at hk
    · simp only [keysOf, List.map_cons, List.cons.injEq] at hk
      simp only [keysOf, List.map_cons, List.nodup_cons] at hn
      have hq1 : p.1 = q.1 := hk.1
      have hv : p.2 = q.2 := by
        have h1 : lookupId (p :: A) p.1 = some p.2 := by
          simp [lookupId, List.find?_cons]
        have h2 : lookupId (q :: B) p.1 = some q.2 := by
          simp [lookupId, List.find?_cons, hq1.symm]
        have := (hl p.1).symm.trans h1
        rw [h2] at this
        exact (Option.some.injEq _ _ ▸ this).symm
      have hAB : A = B := by
        refine ih hk.2 hn.2 ?_
        intro k
        by_cases hkp : k = p.1
        · subst hkp
          rw [lookupId_eq_none_of_not_mem (by simpa [keysOf] using hn.1),
            lookupId_eq_none_of_not_mem]
          rw [keysOf, ← hk.2]
          simpa [keysOf] using hn.1
        · have hstep : ∀ (C : List (String × Review)) (x : String × Review),
              x.1 = p.1 → lookupId (x :: C) k = lookupId C k := by
            intro C x hx
            simp [lookupId, List.find?_cons, hx, Ne.symm hkp]
          have e1 := hstep A p rfl
          have e2 := hstep B q hq1.symm
          rw [← e1, ← e2]
          exact hl k
      have hpq : p = q := Prod.ext hq1 hv
      rw [hpq, hAB]

theorem keysOf_addReviews_of_mem {A : List (String × Review)}
    {rs : List Review}
    (h : ∀ r ∈ rs, r.reviewId ≠ "" → r.reviewId ∈ keysOf A) :
    keysOf (addReviews A rs) = keysOf A := by
  induction rs generalizing A with
  | nil => rfl
  | cons r rs ih =>
    show keysOf (addReviews (if r.reviewId ≠ "" then mapSet A r.reviewId r else A) rs) = _
    by_cases hid : r.reviewId = ""
    · rw [if_neg (by simpa using hid)]
      exact ih (fun x hx hxne => h x (by simp [hx]) hxne)
    · rw [if_pos (by simpa using hid)]
      have hmem : r.reviewId ∈ keysOf A := h r (by simp) hid
      rw [ih ?_, keysOf_mapSet_of_mem r hmem]
      intro x hx hxne
      rw [keysOf_mapSet_of_mem r hmem]
      exact h x (by simp [hx]) hxne

/-- Re-merging the same incoming list into a merge result changes
nothing: the keys are all present with their final values already, and the
result of the first merge is a fixed point of the sort. -/
theorem mergeReviews_idem (c n : List Review) :
    mergeReviews (mergeReviews c n) n = mergeReviews c n := by
  set m := mergeReviews c n with hm
  have hne : ∀ r ∈ m, r.reviewId ≠ "" := fun r hr => mem_mergeReviews_id_ne hr
  have hd : (m.map Review.reviewId).Nodup := mergeReviews_ids_nodup c n
  have hL : addReviews [] m = m.map (fun r => (r.reviewId, r)) := by
    have := @addReviews_eq_append [] m hne (fun r _ => by simp [keysOf]) hd
    simpa using this
  have hkeysL : keysOf (addReviews [] m) = m.map Review.reviewId := by
    rw [hL]
    unfold keysOf
    rw [List.map_map]
    rfl
  have hnodupL : (keysOf (addReviews [] m)).Nodup := by
    rw [hkeysL]; exact hd
  have hmemkeys : ∀ r ∈ n, r.reviewId ≠ "" → r.reviewId ∈ keysOf (addReviews [] m) := by
    intro r hr hrne
    rcases hlw : lastWrite n r.reviewId with _ | w
    · exact absurd hlw (lastWrite_ne_none_of_mem hr rfl hrne)
    · have hlook : lookupId (mergeMap c n) r.reviewId = some w := by
        rw [mergeMap_lookup, hlw]; rfl
      have hwm : w ∈ m := mem_mergeReviews_of_lookup hlook
      have hwid : w.reviewId = r.reviewId := (lastWrite_mem hlw).2.1
      rw [hkeysL]
      exact List.mem_map.mpr ⟨w, hwm, hwid⟩
  have hext : addReviews (addReviews [] m) n = addReviews [] m := by
    refine alist_ext (keysOf_addReviews_of_mem hmemkeys)
      (by rw [keysOf_addReviews_of_mem hmemkeys]; exact hnodupL) ?_
    intro k
    rw [lookupId_addReviews]
    rcases hlw : lastWrite n k with _ | v
    · simp
    · have hlook : lookupId (mergeMap c n) k = some v := by
        rw [mergeMap_lookup, hlw]; rfl
      have hvm : v ∈ m := mem_mergeReviews_of_lookup hlook
      have hvk : v.reviewId = k := (lastWrite_mem hlw).2.1
      have hmem : (k, v) ∈ addReviews [] m := by
        rw [hL]
        exact List.mem_map.mpr ⟨v, hvm, by rw [hvk]⟩
      rw [lookupId_of_mem_nodup hnodupL hmem]
      simp
  calc mergeReviews m n
      = sortReviews ((addReviews (addReviews [] m) n).map Prod.snd) := rfl
    _ = sortReviews ((addReviews [] m).map Prod.snd) := by rw [hext]
    _ = sortReviews m := by
        rw [hL, List.map_map]
        congr 1
        have : ∀ r ∈ m, (Prod.snd ∘ fun r => (r.reviewId, r)) r = id r :=
          fun r _ => rfl
        rw [List.map_congr_left this, List.map_id]
    _ = m := by
        rw [hm, mergeReviews_def c n]
        exact sortReviews_idem _

/-! ### Helpers for the request-cycle claims -/

/-- Modelled from the spec: the numeric star mapping the specification
describes — FIVE..ONE to 5..1 and every other value contributing 0 — to
be compared with the source's prototype-chain lookup `starValues`. -/
def starValueNum (s : String) : Nat :=
  if s = "FIVE" then 5
  else if s = "FOUR" then 4
  else if s = "THREE" then 3
  else if s = "TWO" then 2
  else if s = "ONE" then 1
  else 0

theorem addStar_clean (a : Nat) {s : String} (h : s ∉ objectProtoMembers) :
    addStar (.num a) s = .num (a + starValueNum s) := by
  by_cases h5 : s = "FIVE"
  · subst h5; rfl
  by_cases h4 : s = "FOUR"
  · subst h4; rfl
  by_cases h3 : s = "THREE"
  · subst h3; rfl
  by_cases h2 : s = "TWO"
  · subst h2; rfl
  by_cases h1 : s = "ONE"
  · subst h1; rfl
  have hs : starValues s = .missing := by
    unfold starValues
    rw [if_neg h5, if_neg h4, if_neg h3, if_neg h2, if_neg h1, if_neg h]
  have hn : starValueNum s = 0 := by
    unfold starValueNum
    rw [if_neg h5, if_neg h4, if_neg h3, if_neg h2, if_neg h1]
  unfold addStar
  rw [hs, hn, Nat.add_zero]

theorem addStar_poisoned (s : String) : addStar .poisonedStr s = .poisonedStr := by
  unfold addStar
  split <;> rfl

theorem addStar_proto {s : String} (h : s ∈ objectProtoMembers) (acc : JsAcc) :
    addStar acc s = .poisonedStr := by
  have h5 : s ≠ "FIVE" := by rintro rfl; exact absurd h (by decide)
  have h4 : s ≠ "FOUR" := by rintro rfl; exact absurd h (by decide)
  have h3 : s ≠ "THREE" := by rintro rfl; exact absurd h (by decide)
  have h2 : s ≠ "TWO" := by rintro rfl; exact absurd h (by decide)
  have h1 : s ≠ "ONE" := by rintro rfl; exact absurd h (by decide)
  have hs : starValues s = .protoMember := by
    unfold starValues
    rw [if_neg h5, if_neg h4, if_neg h3, if_neg h2, if_neg h1, if_pos h]
  unfold addStar
  rw [hs]

theorem ratingSum_foldl (l : List Review) (a : Nat)
    (h : ∀ r ∈ l, r.starRating ∉ objectProtoMembers) :
    l.foldl (fun acc r => addStar acc r.starRating) (.num a)
      = .num (a + (l.map (fun r => starValueNum r.starRating)).sum) := by
  induction l generalizing a with
  | nil => simp
  | cons r l ih =>
    rw [List.foldl_cons, addStar_clean a (h r (by simp))]
    rw [ih _ (fun x hx => h x (by simp [hx]))]
    rw [List.map_cons, List.sum_cons]
    congr 1
    omega

/-- With no prototype-member rating in sight, the reduce computes the
numeric star sum the spec describes. -/
theorem ratingSum_clean {l : List Review}
    (h : ∀ r ∈ l, r.starRating ∉ objectProtoMembers) :
    ratingSum l = .num ((l.map (fun r => starValueNum r.starRating)).sum) := by
  unfold ratingSum
  rw [ratingSum_foldl l 0 h, Nat.zero_add]

theorem foldl_addStar_poisoned : ∀ (l : List Review),
    l.foldl (fun acc r => addStar acc r.starRating) .poisonedStr
      = .poisonedStr := by
  intro l
  induction l with
  | nil => rfl
  | cons r l ih =>
    rw [List.foldl_cons, addStar_poisoned]
    exact ih

theorem foldl_addStar_mem_poisoned : ∀ (l : List Review) (acc : JsAcc),
    (∃ r ∈ l, r.starRating ∈ objectProtoMembers) →
    l.foldl (fun acc r => addStar acc r.starRating) acc = .poisonedStr := by
  intro l
  induction l with
  | nil =>
    intro acc h
    simp at h
  | cons x l ih =>
    intro acc h
    rw [List.foldl_cons]
    by_cases hx : x.starRating ∈ objectProtoMembers
    · rw [addStar_proto hx]
      exact foldl_addStar_poisoned l
    · rcases h with ⟨r, hr, hmem⟩
      rcases List.mem_cons.mp hr with hr | hr
      · exact absurd (hr ▸ hmem) hx
      · exact ih _ ⟨r, hr, hmem⟩

/-- One prototype-member rating poisons the whole reduce. -/
theorem ratingSum_poisoned {l : List Review}
    (h : ∃ r ∈ l, r.starRating ∈ objectProtoMembers) :
    ratingSum l = .poisonedStr :=
  foldl_addStar_mem_poisoned l (.num 0) h

theorem averageRating_clean {l : List Review}
    (h : ∀ r ∈ l, r.starRating ∉ objectProtoMembers) :
    averageRating l = if l.length = 0 then .num 0
      else .num (((l.map (fun r => starValueNum r.starRating)).sum : Rat)
        / (l.length : Rat)) := by
  unfold averageRating
  rw [ratingSum_clean h]
  by_cases hl : l.length = 0
  · simp [hl]
  · rw [if_neg hl, if_pos (by omega)]

theorem averageRating_nan {l : List Review}
    (h : ∃ r ∈ l, r.starRating ∈ objectProtoMembers) :
    averageRating l = .nan := by
  have hpos : 0 < l.length := by
    rcases h with ⟨r, hr, _⟩
    rcases l with _ | _
    · simp at hr
    · simp
  unfold averageRating
  rw [ratingSum_poisoned h, if_pos hpos]

/-- Normal-path reduction of the handler: configured location, a stored
document with a reviews array. -/
theorem getReviews_stored_ok (pid : Option String) (c : List Review)
    (lu : Option String) (fetched : Except String (Option (List Review)))
    (locInfo : Except String LocationInfo) (now : String) :
    getReviews (some "locations/123") pid (.stored ⟨some c, lu⟩) fetched locInfo now
      = { response :=
            { status := 200
              error := none
              reviews := mergeReviews c (fetchedReviews fetched)
              averageRating := averageRating (mergeReviews c (fetchedReviews fetched))
              totalReviewCount := (mergeReviews c (fetchedReviews fetched)).length
              name := some ((jsStringOr
                (match locInfo with
                  | .ok i => i
                  | .error _ => ⟨none, none⟩ : LocationInfo).title none).getD "Our Business")
              placeId := jsStringOr pid (jsStringOr
                (match locInfo with
                  | .ok i => i
                  | .error _ => ⟨none, none⟩ : LocationInfo).placeId none)
              cached := some (fetchFailed fetched)
              cacheInfo := some
                { totalCached := (mergeReviews c (fetchedReviews fetched)).length
                  newFromGoogle := (fetchedReviews fetched).length
                  lastUpdated := lu } }
          saved := some ⟨some (mergeReviews c (fetchedReviews fetched)), some now⟩ } := by
  rfl

/-- Second conjunct of C1 factored out: a cached record whose id no
incoming record carries survives the merge unchanged. -/
theorem mem_mergeReviews_of_cached {c n : List Review} {r : Review}
    (hc : distinctIds c) (hr : r ∈ c) (hne : r.reviewId ≠ "")
    (hno : ∀ r' ∈ n, r'.reviewId ≠ r.reviewId) : r ∈ mergeReviews c n := by
  have hn : lastWrite n r.reviewId = none := lastWrite_eq_none hno
  have hclw : lastWrite c r.reviewId = some r :=
    lastWrite_of_mem_distinct hc hr rfl hne
  have : lookupId (mergeMap c n) r.reviewId = some r := by
    rw [mergeMap_lookup, hn, hclw, Option.none_or]
  exact mem_mergeReviews_of_lookup this

/-- A fixed sample record used by concrete witnesses. -/
def sampleReview (id : String) (t : Option Int) (s : String) : Review :=
  { reviewId := id, createTime := t, starRating := s, comment := "c-" ++ id }

/-! ### The claims -/

/-- C1: for cached and incoming record lists (each carrying distinct
truthy ids, invariant I1), every incoming record with a non-empty
`reviewId` appears in the merge result and is the only record at its id
(wholesale last-writer-wins replacement), while every cached record with
a non-empty `reviewId` whose id no incoming record carries is retained
unchanged. -/
theorem claim_C1 (c n : List Review) (hc : distinctIds c) (hn : distinctIds n) :
    (∀ r ∈ n, r.reviewId ≠ "" →
      r ∈ mergeReviews c n ∧
        ∀ r' ∈ mergeReviews c n, r'.reviewId = r.reviewId → r' = r) ∧
    (∀ r ∈ c, r.reviewId ≠ "" → (∀ r' ∈ n, r'.reviewId ≠ r.reviewId) →
      r ∈ mergeReviews c n) := by
  constructor
  · intro r hr hne
    have hlw : lastWrite n r.reviewId = some r :=
      lastWrite_of_mem_distinct hn hr rfl hne
    have hlook : lookupId (mergeMap c n) r.reviewId = some r := by
      rw [mergeMap_lookup, hlw]
      rfl
    refine ⟨mem_mergeReviews_of_lookup hlook, ?_⟩
    intro r' hr' hid
    have := lookup_of_mem_mergeReviews hr'
    rw [hid, hlook] at this
    exact (Option.some.inj this).symm
  · intro r hr hne hno
    exact mem_mergeReviews_of_cached hc hr hne hno

/-- C1 witness: last-writer-wins on an edited record and retention of a
record removed upstream, at concrete inputs. -/
theorem claim_C1_witness :
    (sampleReview "r1" (some 100) "FIVE" ∈
      mergeReviews [sampleReview "r1" (some 100) "FOUR"]
        [sampleReview "r1" (some 100) "FIVE"]) ∧
    (sampleReview "a" (some 10) "ONE" ∈
      mergeReviews [sampleReview "a" (some 10) "ONE", sampleReview "b" (some 20) "TWO"]
        [sampleReview "b" (some 20) "TWO"]) := by
  constructor
  · exact ((claim_C1 [sampleReview "r1" (some 100) "FOUR"]
      [sampleReview "r1" (some 100) "FIVE"] (by decide) (by decide)).1
      (sampleReview "r1" (some 100) "FIVE") (by decide) (by decide)).1
  · exact (claim_C1
      [sampleReview "a" (some 10) "ONE", sampleReview "b" (some 20) "TWO"]
      [sampleReview "b" (some 20) "TWO"] (by decide) (by decide)).2
      (sampleReview "a" (some 10) "ONE") (by decide) (by decide) (by decide)

/-- C2: the id set never shrinks across a merge — every cached record
with a truthy `reviewId` still has a record under that id in the result —
and the result never holds two records with the same `reviewId`. -/
theorem claim_C2 (c n : List Review) :
    (∀ r ∈ c, r.reviewId ≠ "" →
      ∃ r' ∈ mergeReviews c n, r'.reviewId = r.reviewId) ∧
    (mergeReviews c n).Pairwise (fun a b => a.reviewId ≠ b.reviewId) := by
  constructor
  · intro r hr hne
    rcases hv : lookupId (mergeMap c n) r.reviewId with _ | v
    · rw [mergeMap_lookup] at hv
      rcases hlw : lastWrite n r.reviewId with _ | w
      · rw [hlw, Option.none_or] at hv
        exact absurd hv (lastWrite_ne_none_of_mem hr rfl hne)
      · rw [hlw] at hv
        simp at hv
    · have hmem := mem_mergeReviews_of_lookup hv
      have hpair := mem_of_lookupId hv
      have hid := (mergeMap_pairsOk c n _ hpair).1
      exact ⟨v, hmem, hid⟩
  · have := mergeReviews_ids_nodup c n
    rw [List.Nodup, List.pairwise_map] at this
    exact this

/-- C2 witness: a cached id survives a merge that drops it upstream, at
concrete inputs. -/
theorem claim_C2_witness :
    ∃ r' ∈ mergeReviews [sampleReview "a" (some 10) "ONE"]
      [sampleReview "b" (some 20) "TWO"],
      r'.reviewId = (sampleReview "a" (some 10) "ONE").reviewId :=
  (claim_C2 [sampleReview "a" (some 10) "ONE"] [sampleReview "b" (some 20) "TWO"]).1
    (sampleReview "a" (some 10) "ONE") (by decide) (by decide)

/-- C5: merging the same incoming list twice yields exactly the record
sequence of merging it once — no duplicates, no drift. -/
theorem claim_C5 (c n : List Review) :
    mergeReviews (mergeReviews c n) n = mergeReviews c n :=
  mergeReviews_idem c n

/-- C6 as stated is false on the code: with an unparseable `createTime`
between two parseable ones every comparison is a tie (NaN coerced to +0),
the engine detects the whole array as one run and returns it unchanged,
so the parseable records stay in increasing — not decreasing — order. -/
theorem claim_C6_counterexample :
    mergeReviews [sampleReview "a" (some 1704067200000) "ONE",
        sampleReview "x" none "ONE",
        sampleReview "b" (some 1748736000000) "ONE"] []
      = [sampleReview "a" (some 1704067200000) "ONE",
        sampleReview "x" none "ONE",
        sampleReview "b" (some 1748736000000) "ONE"] ∧
    ¬ (mergeReviews [sampleReview "a" (some 1704067200000) "ONE",
        sampleReview "x" none "ONE",
        sampleReview "b" (some 1748736000000) "ONE"] []).Pairwise
      (fun p q => ∀ tp tq, p.createTime = some tp → q.createTime = some tq →
        tq ≤ tp ∧ (tp ≠ tq → tq < tp)) := by
  have heq : mergeReviews [sampleReview "a" (some 1704067200000) "ONE",
      sampleReview "x" none "ONE",
      sampleReview "b" (some 1748736000000) "ONE"] []
      = [sampleReview "a" (some 1704067200000) "ONE",
        sampleReview "x" none "ONE",
        sampleReview "b" (some 1748736000000) "ONE"] := by decide
  refine ⟨heq, ?_⟩
  rw [heq]
  intro hpair
  have h1 := (List.pairwise_cons.mp hpair).1
    (sampleReview "b" (some 1748736000000) "ONE") (by decide)
  have h2 := (h1 1704067200000 1748736000000 rfl rfl).1
  omega

/-- C6 amended: the merge output is always a permutation of the
deduplicated map records — whatever the `createTime`s, the sort never
fails and never drops a record — and whenever every record involved has
a parseable `createTime` (the comparator is then consistent) the output
is ordered by `createTime` weakly descending, strictly for distinct
values; with an unparseable `createTime` present the relative order is
implementation-defined, and even parseable records need not descend. -/
theorem claim_C6_amended (c n : List Review) :
    (mergeReviews c n).Perm ((mergeMap c n).map Prod.snd) ∧
    ((∀ r ∈ mergeReviews c n, r.createTime.isSome) →
      (mergeReviews c n).Pairwise (fun a b => ∀ ta tb,
        a.createTime = some ta → b.createTime = some tb →
          tb ≤ ta ∧ (ta ≠ tb → tb < ta))) := by
  constructor
  · exact sortReviews_perm _
  · intro hall
    have hall2 : ∀ r ∈ (mergeMap c n).map Prod.snd, r.createTime.isSome := by
      intro r hr
      exact hall r ((sortReviews_perm _).mem_iff.mpr hr)
    have hp := sortReviews_pairwise_of_parseable hall2
    refine List.Pairwise.imp ?_ hp
    intro a b hab ta tb hta htb
    have e1 : jsTime a = ta := by simp [jsTime, hta]
    have e2 : jsTime b = tb := by simp [jsTime, htb]
    rw [e1, e2] at hab
    exact ⟨hab, fun hne => by omega⟩

/-- C6 witness: the three spec timestamps come out newest-first, and the
pairwise ordering instantiates to a concrete strict inequality. -/
theorem claim_C6_witness :
    mergeReviews [sampleReview "x" (some 1704067200000) "ONE",
        sampleReview "y" (some 1748736000000) "ONE",
        sampleReview "z" (some 1677801600000) "ONE"] []
      = [sampleReview "y" (some 1748736000000) "ONE",
        sampleReview "x" (some 1704067200000) "ONE",
        sampleReview "z" (some 1677801600000) "ONE"] ∧
    (1704067200000 : Int) ≤ 1748736000000 := by
  have heq : mergeReviews [sampleReview "x" (some 1704067200000) "ONE",
      sampleReview "y" (some 1748736000000) "ONE",
      sampleReview "z" (some 1677801600000) "ONE"] []
      = [sampleReview "y" (some 1748736000000) "ONE",
        sampleReview "x" (some 1704067200000) "ONE",
        sampleReview "z" (some 1677801600000) "ONE"] := by decide
  refine ⟨heq, ?_⟩
  have h := (claim_C6_amended [sampleReview "x" (some 1704067200000) "ONE",
      sampleReview "y" (some 1748736000000) "ONE",
      sampleReview "z" (some 1677801600000) "ONE"] []).2 (by decide)
  rw [heq] at h
  have h1 := (List.pairwise_cons.mp h).1
    (sampleReview "x" (some 1704067200000) "ONE") (by decide)
  exact (h1 1748736000000 1704067200000 rfl rfl).1

/-- C8: `loadCache` is total and returns the empty snapshot
`{reviews: [], lastUpdated: null}` both when the cache file is absent and
when its contents cannot be read or parsed. -/
theorem claim_C8 :
    loadCache .absent = { reviews := some [], lastUpdated := none } ∧
    loadCache .corrupt = { reviews := some [], lastUpdated := none } :=
  ⟨rfl, rfl⟩

/-- C3: when the upstream fetch fails and the loaded cache (well-formed
per invariant I1: distinct truthy ids) is non-empty, the response is a
200 success payload with no error field, containing every cached record,
with `cached: true` and `cacheInfo.newFromGoogle = 0` — the fetch error is
never surfaced as a failed response. -/
theorem claim_C3 (pid : Option String) (c : List Review) (lu : Option String)
    (e : String) (locInfo : Except String LocationInfo) (now : String)
    (hc : distinctIds c) (hne : ∀ r ∈ c, r.reviewId ≠ "") (hnil : c ≠ []) :
    ((getReviews (some "locations/123") pid (.stored ⟨some c, lu⟩)
      (.error e) locInfo now).response.status = 200) ∧
    ((getReviews (some "locations/123") pid (.stored ⟨some c, lu⟩)
      (.error e) locInfo now).response.error = none) ∧
    ((getReviews (some "locations/123") pid (.stored ⟨some c, lu⟩)
      (.error e) locInfo now).response.cached = some true) ∧
    (((getReviews (some "locations/123") pid (.stored ⟨some c, lu⟩)
      (.error e) locInfo now).response.cacheInfo).map CacheInfo.newFromGoogle
      = some 0) ∧
    (∀ r ∈ c, r ∈ (getReviews (some "locations/123") pid (.stored ⟨some c, lu⟩)
      (.error e) locInfo now).response.reviews) ∧
    ((getReviews (some "locations/123") pid (.stored ⟨some c, lu⟩)
      (.error e) locInfo now).response.reviews ≠ []) := by
  rw [getReviews_stored_ok]
  have hmem : ∀ r ∈ c, r ∈ mergeReviews c (fetchedReviews (.error e)) := by
    intro r hr
    exact mem_mergeReviews_of_cached hc hr (hne r hr)
      (by intro r' hr'; simp [fetchedReviews] at hr')
  refine ⟨rfl, rfl, rfl, rfl, hmem, ?_⟩
  show mergeReviews c (fetchedReviews (.error e)) ≠ []
  rcases c with _ | ⟨r, c⟩
  · exact absurd rfl hnil
  · intro hcontra
    have := hmem r (by simp)
    rw [hcontra] at this
    simp at this

/-- C3 witness: a failed fetch over a two-record cache still yields a 200
payload containing both records. -/
theorem claim_C3_witness :
    ((getReviews (some "locations/123") none
      (.stored ⟨some [sampleReview "a" (some 10) "FIVE",
        sampleReview "b" (some 20) "ONE"], some "t0"⟩)
      (.error "network") (.ok ⟨none, none⟩) "t1").response.status = 200) ∧
    (sampleReview "a" (some 10) "FIVE" ∈
      (getReviews (some "locations/123") none
      (.stored ⟨some [sampleReview "a" (some 10) "FIVE",
        sampleReview "b" (some 20) "ONE"], some "t0"⟩)
      (.error "network") (.ok ⟨none, none⟩) "t1").response.reviews) := by
  have h := claim_C3 none
    [sampleReview "a" (some 10) "FIVE", sampleReview "b" (some 20) "ONE"]
    (some "t0") "network" (.ok ⟨none, none⟩) "t1"
    (by decide) (by decide) (by decide)
  exact ⟨h.1, h.2.2.2.2.1 (sampleReview "a" (some 10) "FIVE") (by decide)⟩

/-- C4 as stated is false on the code: with a failed fetch the persisted
snapshot still gets the current time as `lastUpdated` (nothing is carried
forward), and with a successful fetch the response's
`cacheInfo.lastUpdated` still reports the previously stored value, not
the current time. -/
theorem claim_C4_counterexample :
    ((getReviews (some "locations/123") none
      (.stored ⟨some [], some "2024-01-01T00:00:00.000Z"⟩)
      (.error "network") (.ok ⟨none, none⟩) "2025-06-01T00:00:00.000Z").saved
      = some ⟨some [], some "2025-06-01T00:00:00.000Z"⟩) ∧
    ((loadCache (.stored ⟨some [], some "2024-01-01T00:00:00.000Z"⟩)).lastUpdated
      = some "2024-01-01T00:00:00.000Z") ∧
    (some "2025-06-01T00:00:00.000Z" ≠ some "2024-01-01T00:00:00.000Z") ∧
    (((getReviews (some "locations/123") none
      (.stored ⟨some [], some "2024-01-01T00:00:00.000Z"⟩)
      (.ok (some [])) (.ok ⟨none, none⟩)
      "2025-06-01T00:00:00.000Z").response.cacheInfo).map CacheInfo.lastUpdated
      = some (some "2024-01-01T00:00:00.000Z")) := by
  refine ⟨rfl, rfl, by decide, rfl⟩

/-- C4 amended: on every cycle that reaches the merge step, the persisted
snapshot's `lastUpdated` is the current time of the request whether or
not the fetch succeeded, and the response's `cacheInfo.lastUpdated`
always reports the `lastUpdated` loaded from the cache at the start of
the request — never the newly written time. -/
theorem claim_C4_amended (pid : Option String) (c : List Review)
    (lu : Option String) (fetched : Except String (Option (List Review)))
    (locInfo : Except String LocationInfo) (now : String) :
    (((getReviews (some "locations/123") pid (.stored ⟨some c, lu⟩)
      fetched locInfo now).saved).map CacheDoc.lastUpdated = some (some now)) ∧
    (((getReviews (some "locations/123") pid (.stored ⟨some c, lu⟩)
      fetched locInfo now).response.cacheInfo).map CacheInfo.lastUpdated
      = some lu) ∧
    (((getReviews (some "locations/123") pid (.stored ⟨some c, lu⟩)
      fetched locInfo now).saved).map CacheDoc.lastUpdated
      = some (some now)) := by
  rw [getReviews_stored_ok]
  exact ⟨rfl, rfl, rfl⟩

/-- C7 as stated is false on the code: `starValues[s] || 0` is a
prototype-chain property read, so a `starRating` equal to an
`Object.prototype` member name (here "constructor") resolves to a truthy
inherited member; the reduce concatenates it into a non-numeric string
and the average becomes NaN instead of counting the record as 0. -/
theorem claim_C7_counterexample :
    starValues "constructor" = .protoMember ∧
    ((getReviews (some "locations/123") none
      (.stored ⟨some [sampleReview "p" (some 1) "constructor"], none⟩)
      (.error "network") (.ok ⟨none, none⟩) "t").response.averageRating
      = JsNumber.nan) ∧
    JsNumber.nan ≠ JsNumber.num 0 ∧
    ((getReviews (some "locations/123") none
      (.stored ⟨some [sampleReview "p" (some 1) "constructor"], none⟩)
      (.error "network") (.ok ⟨none, none⟩) "t").response.totalReviewCount
      = 1) := by
  refine ⟨rfl, ?_, by decide, by decide⟩
  rw [getReviews_stored_ok]
  show averageRating (mergeReviews [sampleReview "p" (some 1) "constructor"]
    (fetchedReviews (.error "network"))) = JsNumber.nan
  refine averageRating_nan ⟨sampleReview "p" (some 1) "constructor", ?_, by decide⟩
  decide

/-- C7 amended: on the success path `totalReviewCount` is the length of
the merged list; the star lookup sends FIVE..ONE to 5..1; a `starRating`
that is neither a rating name nor an `Object.prototype` member name is
`undefined`, contributes 0 to the sum and still counts in the
denominator, and `averageRating` is the star-value sum divided by the
record count (0 when the list is empty) whenever no record's
`starRating` is a prototype member name; but if any record's
`starRating` is such a name, the truthy inherited member poisons the
reduce into a non-numeric string and `averageRating` is NaN. -/
theorem claim_C7_amended (pid : Option String) (c : List Review)
    (lu : Option String) (fetched : Except String (Option (List Review)))
    (locInfo : Except String LocationInfo) (now : String) :
    ((getReviews (some "locations/123") pid (.stored ⟨some c, lu⟩)
      fetched locInfo now).response.totalReviewCount = (getReviews (some "locations/123") pid (.stored ⟨some c, lu⟩)
      fetched locInfo now).response.reviews.length) ∧
    ((∀ r ∈ (getReviews (some "locations/123") pid (.stored ⟨some c, lu⟩)
      fetched locInfo now).response.reviews, r.starRating ∉ objectProtoMembers) →
      (getReviews (some "locations/123") pid (.stored ⟨some c, lu⟩)
      fetched locInfo now).response.averageRating = if (getReviews (some "locations/123") pid (.stored ⟨some c, lu⟩)
      fetched locInfo now).response.reviews.length = 0 then .num 0
        else .num ((((getReviews (some "locations/123") pid (.stored ⟨some c, lu⟩)
      fetched locInfo now).response.reviews.map
            (fun r => starValueNum r.starRating)).sum : Rat)
          / ((getReviews (some "locations/123") pid (.stored ⟨some c, lu⟩)
      fetched locInfo now).response.reviews.length : Rat))) ∧
    ((∃ r ∈ (getReviews (some "locations/123") pid (.stored ⟨some c, lu⟩)
      fetched locInfo now).response.reviews, r.starRating ∈ objectProtoMembers) →
      (getReviews (some "locations/123") pid (.stored ⟨some c, lu⟩)
      fetched locInfo now).response.averageRating = JsNumber.nan) ∧
    starValues "FIVE" = .num 5 ∧ starValues "FOUR" = .num 4 ∧
    starValues "THREE" = .num 3 ∧ starValues "TWO" = .num 2 ∧
    starValues "ONE" = .num 1 ∧
    (∀ s, s ≠ "FIVE" → s ≠ "FOUR" → s ≠ "THREE" → s ≠ "TWO" → s ≠ "ONE" →
      s ∉ objectProtoMembers → starValues s = .missing) ∧
    (∀ (a : Nat) (s : String), s ∉ objectProtoMembers →
      addStar (.num a) s = .num (a + starValueNum s)) := by
  rw [getReviews_stored_ok]
  refine ⟨rfl, ?_, ?_, rfl, rfl, rfl, rfl, rfl, ?_, fun a s h => addStar_clean a h⟩
  · intro h
    exact averageRating_clean h
  · intro h
    exact averageRating_nan h
  · intro s h5 h4 h3 h2 h1 hp
    unfold starValues
    rw [if_neg h5, if_neg h4, if_neg h3, if_neg h2, if_neg h1, if_neg hp]

/-- C7 witness for the amendment: FIVE, FIVE, ONE average to 11/3, a
prototype-member rating yields NaN, and an ordinary unrecognized rating
is undefined, all at concrete inputs. -/
theorem claim_C7_witness :
    ((getReviews (some "locations/123") none
      (.stored ⟨some [sampleReview "a" (some 1) "FIVE",
        sampleReview "b" (some 2) "FIVE",
        sampleReview "d" (some 3) "ONE"], none⟩)
      (.error "x") (.ok ⟨none, none⟩) "t").response.averageRating
      = JsNumber.num ((11 : Rat) / 3)) ∧
    ((getReviews (some "locations/123") none
      (.stored ⟨some [sampleReview "p" (some 1) "toString"], none⟩)
      (.error "x") (.ok ⟨none, none⟩) "t").response.averageRating
      = JsNumber.nan) ∧
    starValues "SIX" = .missing := by
  refine ⟨?_, ?_, ?_⟩
  · have h := (claim_C7_amended none [sampleReview "a" (some 1) "FIVE",
      sampleReview "b" (some 2) "FIVE", sampleReview "d" (some 3) "ONE"]
      none (.error "x") (.ok ⟨none, none⟩) "t").2.1 (by decide)
    rw [h]
    have hlen : ((getReviews (some "locations/123") none
        (.stored ⟨some [sampleReview "a" (some 1) "FIVE",
          sampleReview "b" (some 2) "FIVE",
          sampleReview "d" (some 3) "ONE"], none⟩)
        (.error "x") (.ok ⟨none, none⟩) "t").response.reviews).length = 3 := by
      decide
    have hsum : (((getReviews (some "locations/123") none
        (.stored ⟨some [sampleReview "a" (some 1) "FIVE",
          sampleReview "b" (some 2) "FIVE",
          sampleReview "d" (some 3) "ONE"], none⟩)
        (.error "x") (.ok ⟨none, none⟩) "t").response.reviews).map
          (fun r => starValueNum r.starRating)).sum = 11 := by
      decide
    rw [hsum, hlen]
    rw [if_neg (by omega)]
    have hc : ((11 : Nat) : Rat) / ((3 : Nat) : Rat) = (11 : Rat) / 3 := by
      norm_num
    rw [hc]
  · exact (claim_C7_amended none [sampleReview "p" (some 1) "toString"]
      none (.error "x") (.ok ⟨none, none⟩) "t").2.2.1 (by decide)
  · exact (claim_C7_amended none [] none (.ok none) (.error "e")
      "t").2.2.2.2.2.2.2.2.1 "SIX" (by decide) (by decide) (by decide)
      (by decide) (by decide) (by decide)

/-- C9: the degraded 500 path always reports `averageRating = 0` whatever
the cached star ratings, omits the business name and place id, returns
the loaded cache records exactly as stored (no merge), reports zero new
records, and persists nothing. -/
theorem claim_C9 (e : String) (file : FileState) :
    (degradedResponse e file).response.status = 500 ∧
    (degradedResponse e file).response.averageRating = JsNumber.num 0 ∧
    (degradedResponse e file).response.name = none ∧
    (degradedResponse e file).response.placeId = none ∧
    (degradedResponse e file).response.reviews
      = (loadCache file).reviews.getD [] ∧
    (degradedResponse e file).response.cached = some true ∧
    ((degradedResponse e file).response.cacheInfo).map CacheInfo.newFromGoogle
      = some 0 ∧
    (degradedResponse e file).saved = none := by
  exact ⟨rfl, rfl, rfl, rfl, rfl, rfl, rfl, rfl⟩

/-- C10: a cache file that parses but has no reviews array is returned
unnormalized by `loadCache`, the merge call then throws, and the request
is diverted to the degraded 500 path (nothing persisted) instead of a
normal empty-cache cycle. -/
theorem claim_C10 (lu : Option String) (pid : Option String)
    (fetched : Except String (Option (List Review)))
    (locInfo : Except String LocationInfo) (now : String) :
    (loadCache (.stored ⟨none, lu⟩) = ⟨none, lu⟩) ∧
    ((loadCache (.stored ⟨none, lu⟩)).reviews = none) ∧
    (mergeReviewsAt (loadCache (.stored ⟨none, lu⟩)).reviews
      (fetchedReviews fetched)
      = .error "TypeError: cachedReviews.forEach is not a function") ∧
    (getReviews (some "locations/123") pid (.stored ⟨none, lu⟩)
      fetched locInfo now
      = degradedResponse "TypeError: cachedReviews.forEach is not a function"
        (.stored ⟨none, lu⟩)) ∧
    ((getReviews (some "locations/123") pid (.stored ⟨none, lu⟩)
      fetched locInfo now).response.status = 500) ∧
    ((getReviews (some "locations/123") pid (.stored ⟨none, lu⟩)
      fetched locInfo now).saved = none) := by
  exact ⟨rfl, rfl, rfl, rfl, rfl, rfl⟩

end MyBusinessReviews
